import Mathlib

/-!
Shallow embedding of `hub/core/meta/encode/chunk_id.py` (`ChunkIdEncoder`).

The encoder state `self._encoded` is a 2-column array of rows
`[chunk_id, last_index]`, both stored as the fixed-width unsigned integer
type `ENCODING_DTYPE`.  We embed a row as a pair of natural numbers that are
kept below `2 ^ 64` (the spec fixes the width at 64 bits), and the array as a
list of rows.  Unsigned wraparound is written explicitly as `% ENC_MOD`.

The base class `Encoder` (`base_encoder.py`), the constants module and the
byte codec (`serialize_chunkids` / `deserialize_chunkids`) are not part of
the provided sources; the definitions that stand for them are modelled from
the spec and say so in their doc comments.  Everything else is translated
directly from `chunk_id.py`.
-/

namespace ChunkIdEnc

/-- Modelled from the spec: the fixed width of `ENCODING_DTYPE` is 64 bits
("`value` is a 64-bit unsigned integer"); `ENC_MOD = 2 ^ 64` is the wraparound
modulus of that unsigned type. -/
def ENC_MOD : Nat := 2 ^ 64

/-- One row of `self._encoded`: `[chunk_id, last_index]`, both stored as the
unsigned `ENCODING_DTYPE` bit pattern. -/
structure Row where
  id : Nat
  lastIndex : Nat
deriving DecidableEq, Repr

/-- The `_encoded` array: a list of `[chunk_id, last_index]` rows. -/
abbrev Encoded := List Row

/-- All stored fields are in range of the 64-bit unsigned type.  Every state
reachable by the encoder's own operations satisfies this. -/
def wfRows (e : Encoded) : Prop := ∀ r ∈ e, r.id < ENC_MOD ∧ r.lastIndex < ENC_MOD

instance : DecidablePred wfRows := fun e =>
  inferInstanceAs (Decidable (∀ r ∈ e, r.id < ENC_MOD ∧ r.lastIndex < ENC_MOD))

/-- Exception kinds raised by the encoder (`ValueError`,
`ChunkIdEncoderError` from `hub.util.exceptions`, `IndexError` for
out-of-range lookups). -/
inductive EncErr where
  | valueError
  | chunkIdEncoderError
  | indexError
deriving DecidableEq, Repr

instance {ε α : Type} [DecidableEq ε] [DecidableEq α] : DecidableEq (Except ε α) := fun x y =>
  match x, y with
  | .ok a, .ok b => if h : a = b then .isTrue (by rw [h]) else .isFalse (by simp [h])
  | .error a, .error b => if h : a = b then .isTrue (by rw [h]) else .isFalse (by simp [h])
  | .ok _, .error _ => .isFalse (by simp)
  | .error _, .ok _ => .isFalse (by simp)

/-- Modelled from the spec: the base `Encoder.num_samples` accessor, "Total
logical units covered = `last_index` of final row + 1 (or 0 if table
empty)", reading the stored (unsigned) bound column, which "reinterprets a
signed range via the unsigned representation".  In particular a freshly
generated, still unregistered first chunk stores the sentinel `2^64 - 1`
and the first registration wraps it back around, as the source's
`_derive_next_last_index` comment records. -/
def num_samples (e : Encoded) : Nat :=
  match e.getLast? with
  | none => 0
  | some r => r.lastIndex + 1

/-- `ChunkIdEncoder.num_chunks` (source lines 103-107): 0 when
`num_samples == 0`, else the number of rows. -/
def num_chunks (e : Encoded) : Nat :=
  if num_samples e = 0 then 0 else e.length

/-- `ChunkIdEncoder.generate_chunk_id` (source lines 109-131).  The random
draw `ENCODING_DTYPE(uuid4().int >> UUID_SHIFT_AMOUNT)` is taken as the
input `id`, truncated to the fixed width.  If `num_samples == 0` the array
is replaced by the single row `[id, -1]` (the unsigned sentinel
`2^64 - 1`); otherwise a row `[id, num_samples - 1]` is appended. -/
def generate_chunk_id (e : Encoded) (id : Nat) : Encoded :=
  if num_samples e = 0 then [⟨id % ENC_MOD, ENC_MOD - 1⟩]
  else e ++ [⟨id % ENC_MOD, (num_samples e - 1) % ENC_MOD⟩]

/-- `ChunkIdEncoder._validate_incoming_item` (source lines 186-202): rejects
a negative count, any registration while `num_samples == 0`, and a zero
count while `num_chunks < 2`. -/
def _validate_incoming_item (e : Encoded) (n : Int) : Option EncErr :=
  if n < 0 then some .valueError
  else if num_samples e = 0 then some .chunkIdEncoderError
  else if n = 0 ∧ num_chunks e < 2 then some .chunkIdEncoderError
  else none

/-- `ChunkIdEncoder._derive_next_last_index` (source lines 207-213):
`last_index + ENCODING_DTYPE(num_samples)` computed in the unsigned
fixed-width type with the overflow warning suppressed, i.e. plain modular
addition; the count is first cast into the unsigned type. -/
def _derive_next_last_index (lastIndex : Nat) (n : Int) : Nat :=
  (lastIndex + (n % (ENC_MOD : Int)).toNat) % ENC_MOD

/-- Modelled from the spec: the base `Encoder.register_samples` flow that
`ChunkIdEncoder.register_samples` (source lines 133-146) delegates to with
`item = None`: first the `validate_incoming` hook runs and may reject, then,
since this specialization's `combine_condition` is constantly `True`, the
last row's bound is extended in place via `derive_next_last_index`.
Validation happens before any mutation, so a rejected call returns the
error with the table untouched. -/
def register_samples (e : Encoded) (n : Int) : Except EncErr Encoded :=
  match _validate_incoming_item e n with
  | some err => .error err
  | none =>
    match e.getLast? with
    | none => .error .chunkIdEncoderError
    | some r => .ok (e.dropLast ++ [⟨r.id, _derive_next_last_index r.lastIndex n⟩])

/-- Modelled from the spec: the binary search of the base lookup, "the
smallest row whose `last_index >= logical_index`", expressed as the first
matching index of the sorted bound column. -/
def translate_index (e : Encoded) (i : Nat) : Nat :=
  e.findIdx fun r => decide (i ≤ r.lastIndex)

/-- Modelled from the spec: the base `Encoder.__getitem__` /
`lookup(logical_index) -> (value, row_index)`: "fails with an out-of-range
error if `logical_index` is negative or ≥ total covered units", otherwise
returns the found row's value (`_derive_value` returns the `chunk_id`
column) together with the row index. -/
def lookup (e : Encoded) (i : Int) : Except EncErr (Nat × Nat) :=
  if i < 0 ∨ (num_samples e : Int) ≤ i then .error .indexError
  else
    match e.get? (translate_index e i.toNat) with
    | some r => .ok (r.id, translate_index e i.toNat)
    | none => .error .indexError

/-- `get_chunk_id` per the spec: "equivalent to `lookup` returning only the
value" (in the source this is `__getitem__`, whose `_derive_value` hook,
lines 215-216, projects the `chunk_id` column). -/
def get_chunk_id (e : Encoded) (i : Int) : Except EncErr Nat :=
  (lookup e i).map fun p => p.1

/-- `ChunkIdEncoder.get_local_sample_index` (source lines 149-184): looks up
the owning row; row 0 returns the index unchanged, otherwise the previous
row's bound plus one (an unsigned fixed-width addition) is subtracted. -/
def get_local_sample_index (e : Encoded) (i : Int) : Except EncErr Int :=
  match lookup e i with
  | .error err => .error err
  | .ok (_, k) =>
    if k = 0 then .ok i
    else
      match e.get? (k - 1) with
      | some prev => .ok (i - (((prev.lastIndex + 1) % ENC_MOD : Nat) : Int))
      | none => .error .indexError

/-- Hexadecimal digit characters as produced by Python's `hex`: `0`-`9` then
lowercase `a`-`f`. -/
def hexDigitChar (d : Nat) : Char :=
  if d < 10 then Char.ofNat (48 + d) else Char.ofNat (87 + d)

/-- Little-endian base-16 digits of `n` (empty for 0), with the first
argument acting as structural fuel (`hexDigitsLEAux n n` computes all
digits since `n / 16 < n` for positive `n`). -/
def hexDigitsLEAux : Nat → Nat → List Nat
  | _, 0 => []
  | 0, _ + 1 => []
  | fuel + 1, n + 1 => (n + 1) % 16 :: hexDigitsLEAux fuel ((n + 1) / 16)

def hexDigitsLE (n : Nat) : List Nat := hexDigitsLEAux n n

/-- `ChunkIdEncoder.name_from_id` (source lines 73-78): `hex(id)[2:]`, the
lowercase hexadecimal digits of the id without the `0x` prefix (`hex(0)` is
`"0x0"`, so the id 0 yields `"0"`). -/
def name_from_id (id : Nat) : String :=
  if id = 0 then String.mk [Char.ofNat 48]
  else String.mk ((hexDigitsLE id).reverse.map hexDigitChar)

/-- Value of one hexadecimal character as accepted by Python's
`int(…, 16)`: `0`-`9`, `a`-`f` or `A`-`F`. -/
def hexCharVal (c : Char) : Option Nat :=
  if 48 ≤ c.toNat ∧ c.toNat ≤ 57 then some (c.toNat - 48)
  else if 97 ≤ c.toNat ∧ c.toNat ≤ 102 then some (c.toNat - 87)
  else if 65 ≤ c.toNat ∧ c.toNat ≤ 70 then some (c.toNat - 55)
  else none

/-- Left-to-right accumulation of hexadecimal digits, failing on the first
character that is not a hexadecimal digit. -/
def hexStringVal : List Char → Nat → Option Nat
  | [], acc => some acc
  | c :: cs, acc =>
    match hexCharVal c with
    | some v => hexStringVal cs (16 * acc + v)
    | none => none

/-- `ChunkIdEncoder.id_from_name` (source lines 80-84):
`int("0x" + name, 16)`, parsing the name as a base-16 integer (the empty
name is rejected, as `int("0x", 16)` raises). -/
def id_from_name (name : String) : Option Nat :=
  match name.data with
  | [] => none
  | c :: cs => hexStringVal (c :: cs) 0

/-- `ChunkIdEncoder.get_name_for_chunk` (source lines 86-91):
`self._encoded[:, CHUNK_ID_INDEX][chunk_index]` followed by `name_from_id`.
NumPy integer indexing resolves a negative index `i` with
`-len <= i < 0` as `len + i` and raises `IndexError` outside
`[-len, len)`. -/
def get_name_for_chunk (e : Encoded) (i : Int) : Except EncErr String :=
  if 0 ≤ i ∧ i < (e.length : Int) then
    match e.get? i.toNat with
    | some r => .ok (name_from_id r.id)
    | none => .error .indexError
  else if 0 ≤ i + (e.length : Int) ∧ i < 0 then
    match e.get? (i + (e.length : Int)).toNat with
    | some r => .ok (name_from_id r.id)
    | none => .error .indexError
  else .error .indexError

/-- Fixed-width little-endian byte encoding of `n` on `w` bytes. -/
def natToLE : Nat → Nat → List Nat
  | 0, _ => []
  | w + 1, n => n % 256 :: natToLE w (n / 256)

/-- Value of a little-endian byte list. -/
def leToNat : List Nat → Nat
  | [] => 0
  | b :: bs => b + 256 * leToNat bs

/-- Row-major flat byte encoding of the table: per row, the `chunk_id`
column then the `last_index` column, each on 8 bytes. -/
def encodeRows : Encoded → List Nat
  | [] => []
  | r :: rs => natToLE 8 r.id ++ natToLE 8 r.lastIndex ++ encodeRows rs

/-- Inverse of `encodeRows`, with the first argument acting as structural
fuel (the byte length suffices); fails when the length is not a multiple of
the 16-byte row stride. -/
def decodeRowsAux : Nat → List Nat → Option Encoded
  | _, [] => some []
  | 0, _ :: _ => none
  | fuel + 1, b :: bs =>
    if 15 ≤ bs.length then
      let r : Row := ⟨leToNat ((b :: bs).take 8), leToNat (((b :: bs).drop 8).take 8)⟩
      (decodeRowsAux fuel ((b :: bs).drop 16)).map fun rest => r :: rest
    else none

def decodeRows (bs : List Nat) : Option Encoded := decodeRowsAux bs.length bs

/-- Modelled from the spec: the version tag written by the producing
system (`hub.__version__`), an opaque byte string shorter than 256 bytes. -/
def VERSION_BYTES : List Nat := [50, 46, 48, 46, 56]

/-- Modelled from the spec: the codec's `serialize(version, rows)`: "a
version tag … followed by the row array encoded as a flat sequence of
fixed-width integers in row-major order, two columns per row"; "An empty
table serializes to an empty buffer".  The version tag is written
length-prefixed so that the buffer is self-describing. -/
def serialize_chunkids (version : List Nat) (rows : Encoded) : List Nat :=
  if rows = [] then []
  else version.length % 256 :: version ++ encodeRows rows

/-- Modelled from the spec: the codec's `deserialize(buffer)`, inverse of
`serialize_chunkids`. -/
def deserialize_chunkids (b : List Nat) : Option (List Nat × Encoded) :=
  match b with
  | [] => none
  | len :: rest =>
    if len ≤ rest.length then
      (decodeRows (rest.drop len)).map fun rows => (rest.take len, rows)
    else none

/-- `ChunkIdEncoder.tobytes` (source lines 70-71):
`serialize_chunkids(hub.__version__, [self._encoded])`. -/
def tobytes (e : Encoded) : List Nat := serialize_chunkids VERSION_BYTES e

/-- `ChunkIdEncoder.frombuffer` (source lines 93-101): an empty buffer
yields a fresh empty instance; otherwise the buffer is deserialized and, if
the decoded array is nonempty, installed (installing an empty decode leaves
the fresh instance's empty array, which is the same state). -/
def frombuffer (b : List Nat) : Option Encoded :=
  if b = [] then some []
  else (deserialize_chunkids b).map fun p => p.2

/-- One public mutating call of the encoder: `generate_chunk_id` (with the
random draw as data) or `register_samples`. -/
inductive Op where
  | gen (id : Nat)
  | reg (n : Int)
deriving DecidableEq, Repr

/-- Effect of one call on the table; a registration that raises leaves the
table exactly as it was (validation precedes every mutation). -/
def stepOp (e : Encoded) : Op → Encoded
  | .gen id => generate_chunk_id e id
  | .reg n =>
    match register_samples e n with
    | .ok e' => e'
    | .error _ => e

def runOps : Encoded → List Op → Encoded
  | e, [] => e
  | e, op :: ops => runOps (stepOp e op) ops

/-- The preconditions stated by the spec for a call sequence, checked
against the evolving state: every registered count is non-negative, a chunk
id exists (the table is nonempty) before any registration, and a zero count
is only registered while at least two chunks exist. -/
def okTrace : Encoded → List Op → Bool
  | _, [] => true
  | e, .gen id :: ops => okTrace (generate_chunk_id e id) ops
  | e, .reg n :: ops =>
    decide (0 ≤ n) && decide (e ≠ []) && (decide (n ≠ 0) || decide (2 ≤ num_chunks e))
      && okTrace (stepOp e (.reg n)) ops

/-- Sum of all counts passed to `register_samples` in the sequence. -/
def sumCounts : List Op → Nat
  | [] => 0
  | .gen _ :: ops => sumCounts ops
  | .reg n :: ops => n.toNat + sumCounts ops

/-- Number of `generate_chunk_id` calls in the sequence. -/
def countGens : List Op → Nat
  | [] => 0
  | .gen _ :: ops => countGens ops + 1
  | .reg _ :: ops => countGens ops

/-- Whether some `register_samples` call in the sequence has a positive
count. -/
def hasPosReg : List Op → Bool
  | [] => false
  | .gen _ :: ops => hasPosReg ops
  | .reg n :: ops => decide (1 ≤ n) || hasPosReg ops

/-- Strict ascending order of the bound column across rows. -/
def sortedLasts (e : Encoded) : Prop :=
  List.Pairwise (fun a b => a.lastIndex < b.lastIndex) e

instance : DecidablePred sortedLasts := fun e =>
  inferInstanceAs (Decidable (List.Pairwise _ e))

/-- Bound of the row at index `k` (0 outside the table). -/
def lastOf (e : Encoded) (k : Nat) : Nat :=
  match e.get? k with
  | some r => r.lastIndex
  | none => 0

/-- Chunk id of the row at index `k` (0 outside the table). -/
def idOf (e : Encoded) (k : Nat) : Nat :=
  match e.get? k with
  | some r => r.id
  | none => 0

/-- First logical index covered by row `k`: 0 for row 0, the previous
bound plus one otherwise. -/
def chunkStart (e : Encoded) (k : Nat) : Nat :=
  if k = 0 then 0 else lastOf e (k - 1) + 1

/-- Invariant of a precondition-obeying call sequence: `S` is the sum of
registered counts so far, `G` the number of generated chunks so far.
Either nothing happened yet, or the table has one row per generated chunk
and the last bound encodes `S` (with the sentinel pattern when `S = 0`). -/
def goodState (e : Encoded) (S G : Nat) : Prop :=
  (e = [] ∧ G = 0 ∧ S = 0) ∨
  (e ≠ [] ∧ e.length = G ∧ num_samples e = (if S = 0 then ENC_MOD else S))

theorem num_samples_nil : num_samples [] = 0 := rfl

theorem num_samples_concat (l : Encoded) (r : Row) :
    num_samples (l ++ [r]) = r.lastIndex + 1 := by
  simp [num_samples, List.getLast?_concat]

theorem num_samples_eq_zero_iff (e : Encoded) : num_samples e = 0 ↔ e = [] := by
  rcases e.eq_nil_or_concat with rfl | ⟨l, r, rfl⟩
  · simp [num_samples]
  · simp [num_samples_concat]

theorem validate_eq_none_iff (e : Encoded) (n : Int) :
    _validate_incoming_item e n = none ↔
      0 ≤ n ∧ e ≠ [] ∧ (n = 0 → 2 ≤ num_chunks e) := by
  unfold _validate_incoming_item
  split_ifs with h1 h2 h3
  · constructor
    · intro h
      simp at h
    · rintro ⟨hn, -, -⟩
      exact absurd h1 (not_lt.mpr hn)
  · simp only [false_iff]
    rintro ⟨-, hne, -⟩
    exact hne ((num_samples_eq_zero_iff e).mp h2)
  · simp only [false_iff]
    rintro ⟨-, -, hz⟩
    exact absurd (hz h3.1) (not_le.mpr h3.2)
  · simp only [true_iff]
    refine ⟨not_lt.mp h1, fun he => h2 ((num_samples_eq_zero_iff e).mpr he), fun hz => ?_⟩
    rw [not_and] at h3
    exact not_lt.mp (h3 hz)

theorem register_samples_ok (e : Encoded) (r : Row) (n : Int)
    (he : e.getLast? = some r) (hn : 0 ≤ n) (h0 : n = 0 → 2 ≤ num_chunks e) :
    register_samples e n =
      .ok (e.dropLast ++ [⟨r.id, _derive_next_last_index r.lastIndex n⟩]) := by
  have hne : e ≠ [] := by
    rintro rfl
    simp at he
  have hval : _validate_incoming_item e n = none :=
    (validate_eq_none_iff e n).mpr ⟨hn, hne, h0⟩
  unfold register_samples
  rw [hval, he]

theorem register_samples_error_iff (e : Encoded) (n : Int) :
    (∃ err, register_samples e n = .error err) ↔
      n < 0 ∨ e = [] ∨ (n = 0 ∧ num_chunks e < 2) := by
  constructor
  · rintro ⟨err, herr⟩
    by_contra hc
    push_neg at hc
    obtain ⟨h1, h2, h3⟩ := hc
    rcases e.eq_nil_or_concat with rfl | ⟨l, r, rfl⟩
    · exact h2 rfl
    · rw [List.concat_eq_append] at herr h3
      rw [register_samples_ok (l ++ [r]) r n (List.getLast?_concat l) h1 h3] at herr
      exact absurd herr (by simp)
  · intro h
    have hne : _validate_incoming_item e n ≠ none := by
      rw [Ne, validate_eq_none_iff]
      rintro ⟨ha, hb, hc⟩
      rcases h with h | h | h
      · exact absurd h (not_lt.mpr ha)
      · exact hb h
      · exact absurd (hc h.1) (not_le.mpr h.2)
    obtain ⟨err, hv⟩ := Option.ne_none_iff_exists'.mp hne
    refine ⟨err, ?_⟩
    unfold register_samples
    rw [hv]

/-- Claim C2: `register_samples(count)` raises a validation error if and
only if the count is negative, or no chunk id was ever generated (the table
is empty; with the modelled `num_samples` this is exactly the
`num_samples == 0` test of the source), or the count is zero while fewer
than two chunks exist; a rejected call leaves the table exactly as it was
(validation runs before any mutation). -/
theorem C2_validation (e : Encoded) (n : Int) :
    ((∃ err, register_samples e n = .error err) ↔
      n < 0 ∨ e = [] ∨ (n = 0 ∧ num_chunks e < 2)) ∧
    (∀ err, register_samples e n = .error err → stepOp e (.reg n) = e) := by
  refine ⟨register_samples_error_iff e n, fun err herr => ?_⟩
  simp [stepOp, herr]

/-- Claim C9: on an encoder with at least two chunks, `register_samples(0)`
succeeds and is an identity on the observable state: the row array (hence
also `num_samples` and `num_chunks`) is unchanged. -/
theorem C9_register_zero (e : Encoded) (hw : wfRows e) (h2 : 2 ≤ num_chunks e) :
    register_samples e 0 = .ok e := by
  rcases e.eq_nil_or_concat with rfl | ⟨l, r, rfl⟩
  · simp [num_chunks, num_samples] at h2
  · rw [List.concat_eq_append] at hw h2 ⊢
    rw [register_samples_ok (l ++ [r]) r 0 (List.getLast?_concat l) le_rfl (fun _ => h2)]
    have hrlt : r.lastIndex < ENC_MOD := (hw r (by simp)).2
    have hd : _derive_next_last_index r.lastIndex 0 = r.lastIndex := by
      unfold _derive_next_last_index
      simp [Nat.mod_eq_of_lt hrlt]
    rw [hd]
    simp

/-- Witness for C9 at a concrete two-chunk encoder. -/
theorem C9_register_zero_witness :
    wfRows [⟨3, 4⟩, ⟨7, 9⟩] ∧ 2 ≤ num_chunks [⟨3, 4⟩, ⟨7, 9⟩] ∧
    register_samples [⟨3, 4⟩, ⟨7, 9⟩] 0 = .ok [⟨3, 4⟩, ⟨7, 9⟩] :=
  ⟨by decide, by decide, C9_register_zero [⟨3, 4⟩, ⟨7, 9⟩] (by decide) (by decide)⟩

theorem lastOf_cons_succ (r : Row) (l : Encoded) (k : Nat) :
    lastOf (r :: l) (k + 1) = lastOf l k := rfl

theorem lastOf_cons_zero (r : Row) (l : Encoded) : lastOf (r :: l) 0 = r.lastIndex := rfl

theorem lastOf_get (e : Encoded) (k : Nat) (hk : k < e.length) :
    e.get? k = some ⟨idOf e k, lastOf e k⟩ := by
  unfold idOf lastOf
  rw [List.get?_eq_get hk]

/-- Characterization of the lookup's binary search: on a table whose bound
column is strictly increasing, an index that falls inside row `k`'s bounds
translates to `k`. -/
theorem translate_index_eq (e : Encoded) (i k : Nat)
    (hk : k < e.length)
    (hlow : ∀ j, j < k → lastOf e j < i)
    (hhigh : i ≤ lastOf e k) :
    translate_index e i = k := by
  induction e generalizing k with
  | nil => exact absurd hk (by simp)
  | cons r l ih =>
    cases k with
    | zero =>
      rw [lastOf_cons_zero] at hhigh
      simp [translate_index, List.findIdx_cons, hhigh]
    | succ k =>
      have h0 : r.lastIndex < i := by
        have := hlow 0 (Nat.succ_pos k)
        rwa [lastOf_cons_zero] at this
      have hrec : translate_index l i = k := by
        refine ih k (by simpa using hk) (fun j hj => ?_) (by rwa [lastOf_cons_succ] at hhigh)
        have := hlow (j + 1) (by omega)
        rwa [lastOf_cons_succ] at this
      have hfalse : ¬ i ≤ r.lastIndex := not_le.mpr h0
      simp only [translate_index, List.findIdx_cons] at hrec ⊢
      simp [hfalse, hrec]

theorem lastOf_lt_of_sorted (e : Encoded) (hs : sortedLasts e) (j k : Nat)
    (hjk : j < k) (hk : k < e.length) :
    lastOf e j < lastOf e k := by
  have hj : j < e.length := lt_trans hjk hk
  have := (List.pairwise_iff_get.mp hs) ⟨j, hj⟩ ⟨k, hk⟩ hjk
  rw [lastOf, lastOf, List.get?_eq_get hj, List.get?_eq_get hk]
  exact this

theorem num_samples_eq_last_lastOf (e : Encoded) (hne : e ≠ []) :
    num_samples e = lastOf e (e.length - 1) + 1 := by
  rcases e.eq_nil_or_concat with rfl | ⟨l, r, rfl⟩
  · exact absurd rfl hne
  · rw [List.concat_eq_append, num_samples_concat, lastOf]
    have : (l ++ [r]).length - 1 = l.length := by simp
    rw [this, List.get?_concat_length]

theorem lastOf_le_last (e : Encoded) (hs : sortedLasts e) (k : Nat) (hk : k < e.length) :
    lastOf e k ≤ lastOf e (e.length - 1) := by
  rcases Nat.lt_or_ge k (e.length - 1) with h | h
  · exact le_of_lt (lastOf_lt_of_sorted e hs k (e.length - 1) h (by omega))
  · have : k = e.length - 1 := by omega
    rw [this]

/-- Successful lookup at an in-range index: the result is the row found by
`translate_index`, which is inside the table. -/
theorem lookup_ok (e : Encoded) (i : Int) (h0 : 0 ≤ i)
    (h1 : i < (num_samples e : Int)) :
    translate_index e i.toNat < e.length ∧
      lookup e i = .ok (idOf e (translate_index e i.toNat), translate_index e i.toNat) := by
  have hne : e ≠ [] := by
    rintro rfl
    rw [num_samples_nil] at h1
    omega
  have hi : i.toNat < num_samples e := by omega
  have hhigh : i.toNat ≤ lastOf e (e.length - 1) := by
    rw [num_samples_eq_last_lastOf e hne] at hi
    omega
  have hlt : translate_index e i.toNat < e.length := by
    have hlen : 0 < e.length := List.length_pos.mpr hne
    apply List.findIdx_lt_length_of_exists
    refine ⟨e.get ⟨e.length - 1, by omega⟩, List.get_mem _ _ _, ?_⟩
    have := lastOf_get e (e.length - 1) (by omega)
    rw [List.get?_eq_get (by omega : e.length - 1 < e.length)] at this
    have hrow : e.get ⟨e.length - 1, by omega⟩ = ⟨idOf e (e.length - 1), lastOf e (e.length - 1)⟩ :=
      Option.some_injective _ this
    rw [hrow]
    exact decide_eq_true hhigh
  refine ⟨hlt, ?_⟩
  unfold lookup
  rw [if_neg (by omega), lastOf_get e _ hlt]

theorem lastOf_lt_MOD (e : Encoded) (hw : wfRows e) (k : Nat) (hk : k < e.length) :
    lastOf e k < ENC_MOD := by
  have := lastOf_get e k hk
  exact (hw _ (List.get?_mem this)).2

/-- The index of the row owning a logical index inside row `k`'s range. -/
theorem chunkStart_translate (e : Encoded) (hs : sortedLasts e) (k i : Nat)
    (hk : k < e.length) (h1 : chunkStart e k ≤ i) (h2 : i ≤ lastOf e k) :
    translate_index e i = k := by
  refine translate_index_eq e i k hk (fun j hj => ?_) h2
  have hkpos : k ≠ 0 := by omega
  rw [chunkStart, if_neg hkpos] at h1
  have hle : lastOf e j ≤ lastOf e (k - 1) := by
    rcases Nat.lt_or_ge j (k - 1) with h | h
    · exact le_of_lt (lastOf_lt_of_sorted e hs j (k - 1) h (by omega))
    · have : j = k - 1 := by omega
      rw [this]
  omega

theorem lt_num_samples_of_le_lastOf (e : Encoded) (hs : sortedLasts e) (k i : Nat)
    (hk : k < e.length) (h2 : i ≤ lastOf e k) : i < num_samples e := by
  have hne : e ≠ [] := by
    intro h
    subst h
    simp at hk
  have := lastOf_le_last e hs k hk
  rw [num_samples_eq_last_lastOf e hne]
  omega

/-- Core lemma for C3: inside row `k`'s range, `get_local_sample_index`
subtracts the start of the chunk. -/
theorem glsi_eq (e : Encoded) (hw : wfRows e) (hs : sortedLasts e) (k i : Nat)
    (hk : k < e.length) (h1 : chunkStart e k ≤ i) (h2 : i ≤ lastOf e k) :
    get_local_sample_index e (i : Int) = .ok ((i : Int) - (chunkStart e k : Int)) := by
  have h0 : (0 : Int) ≤ (i : Int) := Int.ofNat_nonneg i
  have hin : (i : Int) < (num_samples e : Int) := by
    exact_mod_cast lt_num_samples_of_le_lastOf e hs k i hk h2
  obtain ⟨hlt, hlook⟩ := lookup_ok e (i : Int) h0 hin
  have htn : ((i : Int)).toNat = i := Int.toNat_natCast i
  rw [htn] at hlt hlook
  have htr : translate_index e i = k := chunkStart_translate e hs k i hk h1 h2
  rw [htr] at hlt hlook
  unfold get_local_sample_index
  rw [hlook]
  cases k with
  | zero => simp [chunkStart]
  | succ m =>
    have hm : m < e.length := by omega
    have hprev : e.get? (m + 1 - 1) = some ⟨idOf e m, lastOf e m⟩ := by
      simpa using lastOf_get e m hm
    have hnw : (lastOf e m + 1) % ENC_MOD = lastOf e m + 1 := by
      apply Nat.mod_eq_of_lt
      have hlt1 : lastOf e m < lastOf e (m + 1) :=
        lastOf_lt_of_sorted e hs m (m + 1) (by omega) hk
      have hlt2 : lastOf e (m + 1) < ENC_MOD := lastOf_lt_MOD e hw (m + 1) hk
      omega
    simp only [Nat.succ_ne_zero, if_false, hprev, hnw, chunkStart]
    norm_num

/-- Claim C3: for a valid global index `i` owned by row `k`, the local
index is `i` for row 0 and `i - (previous bound + 1)` otherwise; at a
chunk's boundaries `[s, e]` this gives `0` and `e - s`. -/
theorem C3_local_index (e : Encoded) (hw : wfRows e) (hs : sortedLasts e)
    (k i : Nat) (hk : k < e.length) (h1 : chunkStart e k ≤ i) (h2 : i ≤ lastOf e k) :
    get_local_sample_index e (i : Int) =
      .ok ((i : Int) -
        (if translate_index e i = 0 then 0 else (lastOf e (translate_index e i - 1) : Int) + 1)) ∧
    get_local_sample_index e (chunkStart e k : Int) = .ok 0 ∧
    get_local_sample_index e (lastOf e k : Int) =
      .ok ((lastOf e k : Int) - (chunkStart e k : Int)) := by
  have htr : translate_index e i = k := chunkStart_translate e hs k i hk h1 h2
  refine ⟨?_, ?_, ?_⟩
  · rw [glsi_eq e hw hs k i hk h1 h2, htr]
    cases k with
    | zero => simp [chunkStart]
    | succ m => simp [chunkStart]
  · rw [glsi_eq e hw hs k (chunkStart e k) hk le_rfl (le_trans h1 h2)]
    simp
  · rw [glsi_eq e hw hs k (lastOf e k) hk (le_trans h1 h2) le_rfl]

/-- Witness for C3 at a concrete two-chunk table. -/
theorem C3_local_index_witness :
    (wfRows [⟨5, 1⟩, ⟨7, 4⟩] ∧ sortedLasts [⟨5, 1⟩, ⟨7, 4⟩] ∧
      chunkStart [⟨5, 1⟩, ⟨7, 4⟩] 1 ≤ 3 ∧ 3 ≤ lastOf [⟨5, 1⟩, ⟨7, 4⟩] 1) ∧
    get_local_sample_index [⟨5, 1⟩, ⟨7, 4⟩] 3 = .ok 1 ∧
    get_local_sample_index [⟨5, 1⟩, ⟨7, 4⟩] 2 = .ok 0 ∧
    get_local_sample_index [⟨5, 1⟩, ⟨7, 4⟩] 4 = .ok 2 := by
  have h := C3_local_index [⟨5, 1⟩, ⟨7, 4⟩] (by decide) (by decide) 1 3
    (by decide) (by decide) (by decide)
  refine ⟨⟨by decide, by decide, by decide, by decide⟩, ?_, ?_, ?_⟩
  · have := h.1
    simpa using this
  · have := h.2.1
    simpa using this
  · have := h.2.2
    simpa using this

/-- Claim C4: `get_chunk_id` fails with the out-of-range error exactly
outside `[0, num_samples)`; in particular it fails at exactly
`num_samples`, and inside row `k`'s range it returns row `k`'s id. -/
theorem C4_lookup_range (e : Encoded) (hs : sortedLasts e) (j : Int) (k : Nat)
    (hk : k < e.length) (hj0 : 0 ≤ j)
    (hjk1 : chunkStart e k ≤ j.toNat) (hjk2 : j.toNat ≤ lastOf e k) :
    (∀ i : Int, (get_chunk_id e i).isOk = true ↔ 0 ≤ i ∧ i < (num_samples e : Int)) ∧
    get_chunk_id e (num_samples e : Int) = .error .indexError ∧
    get_chunk_id e j = .ok (idOf e k) := by
  refine ⟨fun i => ?_, ?_, ?_⟩
  · constructor
    · intro hok
      by_contra hc
      push_neg at hc
      have hcond : i < 0 ∨ (num_samples e : Int) ≤ i := by
        rcases lt_or_ge i 0 with h | h
        · exact Or.inl h
        · exact Or.inr (hc h)
      rw [get_chunk_id, lookup, if_pos hcond] at hok
      exact absurd hok (by decide)
    · rintro ⟨hi0, hi1⟩
      obtain ⟨-, hlook⟩ := lookup_ok e i hi0 hi1
      rw [get_chunk_id, hlook]
      rfl
  · rw [get_chunk_id, lookup, if_pos (Or.inr le_rfl)]
    rfl
  · have hin : j < (num_samples e : Int) := by
      have := lt_num_samples_of_le_lastOf e hs k j.toNat hk hjk2
      omega
    obtain ⟨hlt, hlook⟩ := lookup_ok e j hj0 hin
    have htr : translate_index e j.toNat = k :=
      chunkStart_translate e hs k j.toNat hk hjk1 hjk2
    rw [htr] at hlook
    rw [get_chunk_id, hlook]
    rfl

/-- Witness for C4 at a concrete two-chunk table. -/
theorem C4_lookup_range_witness :
    (sortedLasts [⟨5, 1⟩, ⟨7, 4⟩] ∧ (0 : Int) ≤ 3 ∧
      chunkStart [⟨5, 1⟩, ⟨7, 4⟩] 1 ≤ (3 : Int).toNat ∧
      (3 : Int).toNat ≤ lastOf [⟨5, 1⟩, ⟨7, 4⟩] 1) ∧
    ((get_chunk_id [⟨5, 1⟩, ⟨7, 4⟩] 9).isOk = true ↔
      (0 : Int) ≤ 9 ∧ (9 : Int) < (num_samples [⟨5, 1⟩, ⟨7, 4⟩] : Int)) ∧
    get_chunk_id [⟨5, 1⟩, ⟨7, 4⟩] (num_samples [⟨5, 1⟩, ⟨7, 4⟩] : Int) =
      .error .indexError ∧
    get_chunk_id [⟨5, 1⟩, ⟨7, 4⟩] 3 = .ok (idOf [⟨5, 1⟩, ⟨7, 4⟩] 1) := by
  have h := C4_lookup_range [⟨5, 1⟩, ⟨7, 4⟩] (by decide) 3 1
    (by decide) (by decide) (by decide) (by decide)
  exact ⟨⟨by decide, by decide, by decide, by decide⟩, h.1 9, h.2.1, h.2.2⟩

theorem ENC_MOD_eq : ENC_MOD = 18446744073709551616 := by norm_num [ENC_MOD]

/-- Claim C10: NumPy-style negative indexing in `get_name_for_chunk`:
`-k` resolves to row `num_rows - k`, and `-1` names the most recently
generated chunk (the last row; after a `generate_chunk_id` it is the row
holding the freshly drawn id). -/
theorem C10_negative_index (e : Encoded) (id k : Nat)
    (he : 1 ≤ e.length) (hk1 : 1 ≤ k) (hk2 : k ≤ e.length) :
    get_name_for_chunk e (-(k : Int)) =
      get_name_for_chunk e ((e.length : Int) - (k : Int)) ∧
    get_name_for_chunk e (-1) = .ok (name_from_id (idOf e (e.length - 1))) ∧
    get_name_for_chunk (generate_chunk_id e id) (-1) = .ok (name_from_id (id % ENC_MOD)) := by
  refine ⟨?_, ?_, ?_⟩
  · have h1 : ¬ (0 ≤ -(k : Int) ∧ -(k : Int) < (e.length : Int)) := by omega
    have h2 : 0 ≤ -(k : Int) + (e.length : Int) ∧ -(k : Int) < 0 := by omega
    have h3 : 0 ≤ (e.length : Int) - (k : Int) ∧
        (e.length : Int) - (k : Int) < (e.length : Int) := by omega
    rw [get_name_for_chunk, get_name_for_chunk, if_neg h1, if_pos h2, if_pos h3]
    have hidx : (-(k : Int) + (e.length : Int)).toNat =
        ((e.length : Int) - (k : Int)).toNat := by omega
    rw [hidx]
  · have h1 : ¬ (0 ≤ (-1 : Int) ∧ (-1 : Int) < (e.length : Int)) := by omega
    have h2 : 0 ≤ (-1 : Int) + (e.length : Int) ∧ (-1 : Int) < 0 := by omega
    rw [get_name_for_chunk, if_neg h1, if_pos h2]
    have hidx : ((-1 : Int) + (e.length : Int)).toNat = e.length - 1 := by omega
    rw [hidx, lastOf_get e (e.length - 1) (by omega)]
  · have hne : e ≠ [] := by
      intro h
      subst h
      simp at he
    have hns : ¬ num_samples e = 0 := fun h => hne ((num_samples_eq_zero_iff e).mp h)
    rw [generate_chunk_id, if_neg hns]
    set e2 : Encoded := e ++ [⟨id % ENC_MOD, (num_samples e - 1) % ENC_MOD⟩] with he2
    have hlen2 : e2.length = e.length + 1 := by simp [he2]
    have h1 : ¬ (0 ≤ (-1 : Int) ∧ (-1 : Int) < (e2.length : Int)) := by omega
    have h2 : 0 ≤ (-1 : Int) + (e2.length : Int) ∧ (-1 : Int) < 0 := by
      rw [hlen2]
      omega
    rw [get_name_for_chunk, if_neg h1, if_pos h2]
    have hidx : ((-1 : Int) + (e2.length : Int)).toNat = e.length := by
      rw [hlen2]
      omega
    rw [hidx, he2, List.get?_concat_length]

/-- Witness for C10 at a concrete two-chunk table. -/
theorem C10_negative_index_witness :
    (1 ≤ ([⟨3, 1⟩, ⟨7, 4⟩] : Encoded).length ∧ 1 ≤ 2 ∧
      2 ≤ ([⟨3, 1⟩, ⟨7, 4⟩] : Encoded).length) ∧
    get_name_for_chunk [⟨3, 1⟩, ⟨7, 4⟩] (-2) = get_name_for_chunk [⟨3, 1⟩, ⟨7, 4⟩] 0 ∧
    get_name_for_chunk [⟨3, 1⟩, ⟨7, 4⟩] (-1) =
      .ok (name_from_id (idOf [⟨3, 1⟩, ⟨7, 4⟩] 1)) ∧
    get_name_for_chunk (generate_chunk_id [⟨3, 1⟩, ⟨7, 4⟩] 9) (-1) =
      .ok (name_from_id (9 % ENC_MOD)) := by
  have h := C10_negative_index [⟨3, 1⟩, ⟨7, 4⟩] 9 2 (by decide) (by decide) (by decide)
  refine ⟨⟨by decide, by decide, by decide⟩, ?_, h.2.1, h.2.2⟩
  have := h.1
  simpa using this

theorem sortedLasts_le_last (l : Encoded) (r : Row) (hs : sortedLasts (l ++ [r])) :
    ∀ a ∈ l ++ [r], a.lastIndex ≤ r.lastIndex := by
  intro a ha
  rw [sortedLasts, List.pairwise_append] at hs
  rcases List.mem_append.mp ha with h | h
  · exact le_of_lt (hs.2.2 a h r (by simp))
  · simp only [List.mem_singleton] at h
    rw [h]

theorem toNat_emod_MOD (n : Int) (hn : 0 ≤ n) :
    (n % (ENC_MOD : Int)).toNat = n.toNat % ENC_MOD := by
  rw [ENC_MOD_eq] at *
  omega

/-- Claim C7, counterexample: after `generate_chunk_id` on a nonempty
registered table — itself reached by a precondition-obeying call sequence —
the new row duplicates the previous bound, so the bound column is not
strictly increasing. -/
theorem C7_sorted_counterexample :
    okTrace [] [.gen 5, .reg 1, .gen 7] = true ∧
    runOps [] [.gen 5, .reg 1, .gen 7] = [⟨5, 0⟩, ⟨7, 0⟩] ∧
    ¬ sortedLasts (runOps [] [.gen 5, .reg 1, .gen 7]) := by
  refine ⟨by decide, by decide, by decide⟩

/-- Claim C7, amended: the strict ordering of the bound column is an
invariant of the generate-then-register cycle: if it holds before, it holds
again after `generate_chunk_id` followed by a positive, non-overflowing
`register_samples` (between the two calls the fresh row transiently
duplicates the previous bound, which is what the counterexample hits). -/
theorem C7_sorted_amended (e : Encoded) (id : Nat) (n : Int)
    (hs : sortedLasts e) (hn : 1 ≤ n) (hb : num_samples e + n.toNat ≤ ENC_MOD) :
    ∃ e', register_samples (generate_chunk_id e id) n = .ok e' ∧ sortedLasts e' := by
  have hn0 : 0 ≤ n := by omega
  have ht1 : 1 ≤ n.toNat := by omega
  have hz : n = 0 → False := by omega
  rcases e.eq_nil_or_concat with rfl | ⟨l, r, rfl⟩
  · rw [generate_chunk_id, if_pos num_samples_nil]
    rw [register_samples_ok [⟨id % ENC_MOD, ENC_MOD - 1⟩] ⟨id % ENC_MOD, ENC_MOD - 1⟩ n rfl hn0
      (fun h => absurd h (fun h' => hz h'))]
    exact ⟨_, rfl, by simp [sortedLasts]⟩
  · rw [List.concat_eq_append] at hs hb ⊢
    have hns : num_samples (l ++ [r]) = r.lastIndex + 1 := num_samples_concat l r
    have hrM : r.lastIndex + 1 + n.toNat ≤ ENC_MOD := by
      rw [hns] at hb
      exact hb
    have hnsne : ¬ num_samples (l ++ [r]) = 0 := by
      rw [hns]
      omega
    have hgen : generate_chunk_id (l ++ [r]) id =
        (l ++ [r]) ++ [⟨id % ENC_MOD, r.lastIndex⟩] := by
      rw [generate_chunk_id, if_neg hnsne, hns, Nat.add_sub_cancel,
        Nat.mod_eq_of_lt (by omega : r.lastIndex < ENC_MOD)]
    rw [hgen]
    rw [register_samples_ok ((l ++ [r]) ++ [⟨id % ENC_MOD, r.lastIndex⟩])
      ⟨id % ENC_MOD, r.lastIndex⟩ n (List.getLast?_concat _) hn0
      (fun h => absurd h (fun h' => hz h'))]
    refine ⟨_, rfl, ?_⟩
    simp only [List.dropLast_concat]
    have hderive : _derive_next_last_index r.lastIndex n = r.lastIndex + n.toNat := by
      rw [_derive_next_last_index, toNat_emod_MOD n hn0,
        Nat.mod_eq_of_lt (by omega : n.toNat < ENC_MOD), Nat.mod_eq_of_lt (by omega)]
    rw [sortedLasts]
    have hshow : List.Pairwise (fun a b : Row => a.lastIndex < b.lastIndex)
        ((l ++ [r]) ++ [(⟨id % ENC_MOD, r.lastIndex + n.toNat⟩ : Row)]) := by
      rw [List.pairwise_append]
      refine ⟨hs, by simp, fun a ha b hb' => ?_⟩
      simp only [List.mem_singleton] at hb'
      rw [hb']
      show a.lastIndex < r.lastIndex + n.toNat
      have := sortedLasts_le_last l r hs a ha
      omega
    rw [show _derive_next_last_index (⟨id % ENC_MOD, r.lastIndex⟩ : Row).lastIndex n
        = r.lastIndex + n.toNat from hderive]
    exact hshow

/-- Witness for C7's amended theorem on a concrete table. -/
theorem C7_sorted_amended_witness :
    (sortedLasts [(⟨3, 4⟩ : Row)] ∧ (1 : Int) ≤ 2 ∧
      num_samples [(⟨3, 4⟩ : Row)] + (2 : Int).toNat ≤ ENC_MOD) ∧
    register_samples (generate_chunk_id [(⟨3, 4⟩ : Row)] 9) 2 =
      .ok [⟨3, 4⟩, ⟨9, 6⟩] ∧ sortedLasts [(⟨3, 4⟩ : Row), ⟨9, 6⟩] := by
  have h := C7_sorted_amended [(⟨3, 4⟩ : Row)] 9 2 (by decide) (by decide)
    (by rw [ENC_MOD_eq]; decide)
  obtain ⟨e', he', hs'⟩ := h
  have hval : register_samples (generate_chunk_id [(⟨3, 4⟩ : Row)] 9) 2 =
      .ok [⟨3, 4⟩, ⟨9, 6⟩] := by decide
  refine ⟨⟨by decide, by decide, by rw [ENC_MOD_eq]; decide⟩, hval, ?_⟩
  rw [hval] at he'
  cases he'
  exact hs'

/-- Claim C8, counterexample: a subsequent extension (the last bound
`2^64 - 2` is an ordinary registered bound, not the sentinel) whose
addition exceeds the 64-bit range is neither raised nor flagged: the call
succeeds and the bound silently wraps to 3. -/
theorem C8_overflow_counterexample :
    register_samples [⟨1, ENC_MOD - 2⟩] 5 = .ok [⟨1, 3⟩] ∧
    _derive_next_last_index (ENC_MOD - 2) 5 = 3 := by
  constructor
  · decide
  · decide

/-- Claim C8, amended: `_derive_next_last_index` suppresses overflow on
every extension, not only the first: any positive registration on a
nonempty table succeeds, the new bound being `(old + count) mod 2^64`;
the sentinel-to-first-value transition is the instance `old = 2^64 - 1`,
which wraps to `count - 1`. -/
theorem C8_overflow_amended (e : Encoded) (r : Row) (n : Int)
    (he : e.getLast? = some r) (hn : 1 ≤ n) (hnM : n < (ENC_MOD : Int)) :
    register_samples e n =
      .ok (e.dropLast ++ [⟨r.id, (r.lastIndex + n.toNat) % ENC_MOD⟩]) ∧
    _derive_next_last_index (ENC_MOD - 1) n = n.toNat - 1 := by
  have hn0 : 0 ≤ n := by omega
  have htM : n.toNat < ENC_MOD := by
    rw [ENC_MOD_eq] at *
    omega
  have hz : n = 0 → False := by omega
  constructor
  · rw [register_samples_ok e r n he hn0 (fun h => absurd h (fun h' => hz h'))]
    rw [_derive_next_last_index, toNat_emod_MOD n hn0, Nat.mod_eq_of_lt htM]
  · rw [_derive_next_last_index, toNat_emod_MOD n hn0, Nat.mod_eq_of_lt htM]
    have h1 : 1 ≤ n.toNat := by omega
    have : ENC_MOD - 1 + n.toNat = ENC_MOD + (n.toNat - 1) := by omega
    rw [this, Nat.add_mod_left, Nat.mod_eq_of_lt (by omega)]

/-- Witness for C8's amended theorem on a concrete genuinely overflowing
extension. -/
theorem C8_overflow_amended_witness :
    (([⟨1, ENC_MOD - 2⟩] : Encoded).getLast? = some ⟨1, ENC_MOD - 2⟩ ∧ (1 : Int) ≤ 5 ∧
      (5 : Int) < (ENC_MOD : Int)) ∧
    register_samples [⟨1, ENC_MOD - 2⟩] 5 =
      .ok (([⟨1, ENC_MOD - 2⟩] : Encoded).dropLast ++ [⟨1, (ENC_MOD - 2 + (5 : Int).toNat) % ENC_MOD⟩]) ∧
    _derive_next_last_index (ENC_MOD - 1) 5 = (5 : Int).toNat - 1 := by
  have h := C8_overflow_amended [⟨1, ENC_MOD - 2⟩] ⟨1, ENC_MOD - 2⟩ 5 (by decide) (by decide)
    (by rw [ENC_MOD_eq]; decide)
  exact ⟨⟨by decide, by decide, by rw [ENC_MOD_eq]; decide⟩, h.1, h.2⟩

theorem goodState_gen (e : Encoded) (S G id : Nat) (h : goodState e S G)
    (hS : S < ENC_MOD) : goodState (generate_chunk_id e id) S (G + 1) := by
  rcases h with ⟨rfl, rfl, rfl⟩ | ⟨hne, hlen, hns⟩
  · rw [generate_chunk_id, if_pos num_samples_nil]
    refine Or.inr ⟨by simp, by simp, ?_⟩
    rw [show num_samples [⟨id % ENC_MOD, ENC_MOD - 1⟩] = ENC_MOD - 1 + 1 from rfl]
    rw [ENC_MOD_eq]
    norm_num
  · have hnsne : ¬ num_samples e = 0 := by
      rw [hns]
      rw [ENC_MOD_eq]
      by_cases h0 : S = 0
      · rw [if_pos h0]
        omega
      · rw [if_neg h0]
        omega
    rw [generate_chunk_id, if_neg hnsne]
    refine Or.inr ⟨by simp, by simp [hlen], ?_⟩
    rw [num_samples_concat]
    show (num_samples e - 1) % ENC_MOD + 1 = if S = 0 then ENC_MOD else S
    rw [hns]
    rw [ENC_MOD_eq] at *
    by_cases h0 : S = 0
    · simp only [if_pos h0]
    · simp only [if_neg h0]
      omega

theorem goodState_reg (e : Encoded) (S G : Nat) (n : Int) (h : goodState e S G)
    (hne : e ≠ []) (hn : 0 ≤ n) (h0 : n = 0 → 2 ≤ num_chunks e)
    (hbound : S + n.toNat < ENC_MOD) :
    ∃ e', register_samples e n = .ok e' ∧ goodState e' (S + n.toNat) G := by
  rcases h with ⟨rfl, -, -⟩ | ⟨-, hlen, hns⟩
  · exact absurd rfl hne
  rcases e.eq_nil_or_concat with rfl | ⟨l, r, rfl⟩
  · exact absurd rfl hne
  rw [List.concat_eq_append] at hlen hns h0 ⊢
  rw [register_samples_ok (l ++ [r]) r n (List.getLast?_concat l) hn h0]
  refine ⟨_, rfl, Or.inr ⟨by simp, by simpa using hlen, ?_⟩⟩
  simp only [List.dropLast_concat]
  rw [num_samples_concat] at hns ⊢
  have hr : r.lastIndex = (if S = 0 then ENC_MOD else S) - 1 := by omega
  show _derive_next_last_index r.lastIndex n + 1 = _
  rw [_derive_next_last_index, toNat_emod_MOD n hn, hr]
  rw [ENC_MOD_eq] at *
  by_cases hS0 : S = 0
  · by_cases ht0 : n.toNat = 0
    · rw [if_pos hS0, if_pos (by omega : S + n.toNat = 0)]
      omega
    · rw [if_pos hS0, if_neg (by omega : ¬ S + n.toNat = 0)]
      omega
  · rw [if_neg hS0, if_neg (by omega : ¬ S + n.toNat = 0)]
    omega

theorem goodState_run (ops : List Op) : ∀ e S G, goodState e S G →
    okTrace e ops = true → S + sumCounts ops < ENC_MOD →
    goodState (runOps e ops) (S + sumCounts ops) (G + countGens ops) := by
  induction ops with
  | nil =>
    intro e S G hg _ _
    simpa [runOps, sumCounts, countGens] using hg
  | cons op ops ih =>
    intro e S G hg hok hb
    cases op with
    | gen id =>
      rw [okTrace] at hok
      rw [sumCounts] at hb ⊢
      have hstep := goodState_gen e S G id hg (by omega)
      have := ih (generate_chunk_id e id) S (G + 1) hstep hok hb
      rw [runOps, stepOp]
      rw [countGens]
      have hGassoc : G + 1 + countGens ops = G + (countGens ops + 1) := by omega
      rwa [hGassoc] at this
    | reg n =>
      rw [okTrace] at hok
      simp only [Bool.and_eq_true, Bool.or_eq_true, decide_eq_true_eq] at hok
      obtain ⟨⟨⟨hn0, hne⟩, hz⟩, hok⟩ := hok
      rw [sumCounts] at hb ⊢
      have h0 : n = 0 → 2 ≤ num_chunks e := by
        intro h
        rcases hz with hz | hz
        · exact absurd h hz
        · exact hz
      obtain ⟨e', hreg, hstep⟩ := goodState_reg e S G n hg hne hn0 h0 (by omega)
      have hstepOp : stepOp e (.reg n) = e' := by
        rw [stepOp, hreg]
      rw [hstepOp] at hok
      have := ih e' (S + n.toNat) G hstep hok (by omega)
      rw [runOps, hstepOp, countGens]
      have hSassoc : S + n.toNat + sumCounts ops = S + (n.toNat + sumCounts ops) := by omega
      rwa [hSassoc] at this

theorem sumCounts_pos_of_hasPosReg (ops : List Op) (h : hasPosReg ops = true) :
    1 ≤ sumCounts ops := by
  induction ops with
  | nil => exact absurd h (by simp [hasPosReg])
  | cons op ops ih =>
    cases op with
    | gen id =>
      rw [hasPosReg] at h
      have := ih h
      rw [sumCounts]
      omega
    | reg n =>
      rw [hasPosReg, Bool.or_eq_true, decide_eq_true_eq] at h
      rw [sumCounts]
      rcases h with h | h
      · omega
      · have := ih h
        omega

/-- Claim C1, counterexample: the sequence `generate_chunk_id();
register_samples(2^64 + 5)` obeys every stated precondition (the count is
non-negative, a chunk exists, the count is nonzero), yet the fixed-width
cast wraps the count and `num_samples` ends at 5, not at the registered
sum `2^64 + 5` (`num_chunks` does equal the one generate call). -/
theorem C1_counts_counterexample :
    okTrace [] [.gen 1, .reg ((2 : Int) ^ 64 + 5)] = true ∧
    sumCounts [Op.gen 1, Op.reg ((2 : Int) ^ 64 + 5)] = 2 ^ 64 + 5 ∧
    num_samples (runOps [] [.gen 1, .reg ((2 : Int) ^ 64 + 5)]) = 5 ∧
    (5 : Nat) ≠ 2 ^ 64 + 5 := by
  refine ⟨by decide, by decide, by decide, by decide⟩

/-- Claim C1, amended: for every call sequence obeying the stated
preconditions in which, additionally, the total registered count stays
below `2^64` and at least one positive count is registered whenever a
chunk was generated (a table whose chunks were never positively registered
still carries the sentinel bound, so its `num_samples` is `2^64`, not 0),
`num_samples` equals the sum of all registered counts and `num_chunks`
equals the number of `generate_chunk_id` calls. -/
theorem C1_counts_amended (ops : List Op)
    (h1 : okTrace [] ops = true) (h2 : sumCounts ops < ENC_MOD)
    (h3 : countGens ops ≠ 0 → hasPosReg ops = true) :
    num_samples (runOps [] ops) = sumCounts ops ∧
    num_chunks (runOps [] ops) = countGens ops := by
  have hg := goodState_run ops [] 0 0 (Or.inl ⟨rfl, rfl, rfl⟩) h1 (by omega)
  simp only [Nat.zero_add] at hg
  rcases hg with ⟨hnil, hG, hS⟩ | ⟨hne, hlen, hns⟩
  · rw [hnil, hG, hS]
    exact ⟨rfl, rfl⟩
  · have hGpos : countGens ops ≠ 0 := by
      intro h
      rw [h] at hlen
      exact hne (List.length_eq_zero.mp hlen)
    have hSpos : sumCounts ops ≠ 0 := by
      intro h
      have := sumCounts_pos_of_hasPosReg ops (h3 hGpos)
      omega
    rw [hns, if_neg hSpos]
    refine ⟨rfl, ?_⟩
    rw [num_chunks, hns, if_neg hSpos, if_neg hSpos]
    exact hlen

/-- Witness for C1's amended theorem on a concrete two-chunk trace. -/
theorem C1_counts_amended_witness :
    (okTrace [] [.gen 3, .reg 2, .gen 4, .reg 1] = true ∧
      sumCounts [Op.gen 3, Op.reg 2, Op.gen 4, Op.reg 1] < ENC_MOD ∧
      hasPosReg [Op.gen 3, Op.reg 2, Op.gen 4, Op.reg 1] = true) ∧
    num_samples (runOps [] [.gen 3, .reg 2, .gen 4, .reg 1]) =
      sumCounts [Op.gen 3, Op.reg 2, Op.gen 4, Op.reg 1] ∧
    num_chunks (runOps [] [.gen 3, .reg 2, .gen 4, .reg 1]) =
      countGens [Op.gen 3, Op.reg 2, Op.gen 4, Op.reg 1] := by
  have h := C1_counts_amended [.gen 3, .reg 2, .gen 4, .reg 1]
    (by decide) (by rw [ENC_MOD_eq]; decide) (fun _ => by decide)
  exact ⟨⟨by decide, by rw [ENC_MOD_eq]; decide, by decide⟩, h.1, h.2⟩

theorem hexCharVal_hexDigitChar : ∀ d, d < 16 → hexCharVal (hexDigitChar d) = some d := by
  decide

theorem hexStringVal_append (xs ys : List Char) (a : Nat) :
    hexStringVal (xs ++ ys) a = (hexStringVal xs a).bind fun b => hexStringVal ys b := by
  induction xs generalizing a with
  | nil => rfl
  | cons c cs ih =>
    rw [List.cons_append]
    cases h : hexCharVal c with
    | some v =>
      simp only [hexStringVal, h]
      exact ih _
    | none =>
      simp only [hexStringVal, h]
      rfl

theorem hexStringVal_singleton (c : Char) (v b : Nat) (h : hexCharVal c = some v) :
    hexStringVal [c] b = some (16 * b + v) := by
  simp only [hexStringVal, h]

/-- Reading back the reversed hexadecimal digits of `n` on top of an
accumulator recovers `n` (Horner evaluation). -/
theorem hexDigitsLEAux_val (fuel : Nat) : ∀ n a, n ≤ fuel →
    hexStringVal ((hexDigitsLEAux fuel n).reverse.map hexDigitChar) a =
      some (a * 16 ^ (hexDigitsLEAux fuel n).length + n) := by
  induction fuel with
  | zero =>
    intro n a hn
    interval_cases n
    simp [hexDigitsLEAux, hexStringVal]
  | succ fuel ih =>
    intro n a hn
    cases n with
    | zero => simp [hexDigitsLEAux, hexStringVal]
    | succ m =>
      rw [show hexDigitsLEAux (fuel + 1) (m + 1) =
          (m + 1) % 16 :: hexDigitsLEAux fuel ((m + 1) / 16) from rfl]
      rw [List.reverse_cons, List.map_append, hexStringVal_append]
      have hdiv : (m + 1) / 16 ≤ fuel := by
        have := Nat.div_lt_self (Nat.succ_pos m) (by norm_num : 1 < 16)
        omega
      rw [ih ((m + 1) / 16) a hdiv, Option.some_bind]
      rw [show List.map hexDigitChar [(m + 1) % 16] = [hexDigitChar ((m + 1) % 16)] from rfl]
      rw [hexStringVal_singleton (hexDigitChar ((m + 1) % 16)) ((m + 1) % 16) _
        (hexCharVal_hexDigitChar ((m + 1) % 16) (Nat.mod_lt _ (by norm_num)))]
      rw [List.length_cons]
      congr 1
      have hdm : 16 * ((m + 1) / 16) + (m + 1) % 16 = m + 1 := by omega
      calc 16 * (a * 16 ^ (hexDigitsLEAux fuel ((m + 1) / 16)).length + (m + 1) / 16)
            + (m + 1) % 16
          = a * (16 ^ (hexDigitsLEAux fuel ((m + 1) / 16)).length * 16)
            + (16 * ((m + 1) / 16) + (m + 1) % 16) := by ring
        _ = a * 16 ^ ((hexDigitsLEAux fuel ((m + 1) / 16)).length + 1) + (m + 1) := by
            rw [hdm, pow_succ]

theorem id_from_name_mk (l : List Char) (hl : l ≠ []) :
    id_from_name (String.mk l) = hexStringVal l 0 := by
  cases l with
  | nil => exact absurd rfl hl
  | cons c cs => rfl

/-- The hexadecimal name produced by `name_from_id` parses back to the id. -/
theorem id_from_name_name_from_id (id : Nat) :
    id_from_name (name_from_id id) = some id := by
  by_cases h : id = 0
  · subst h
    decide
  · rw [name_from_id, if_neg h]
    obtain ⟨m, rfl⟩ : ∃ m, id = m + 1 := ⟨id - 1, by omega⟩
    have hcons : hexDigitsLE (m + 1) = (m + 1) % 16 :: hexDigitsLEAux m ((m + 1) / 16) := rfl
    have hne : (hexDigitsLE (m + 1)).reverse.map hexDigitChar ≠ [] := by
      rw [hcons]
      simp
    rw [id_from_name_mk _ hne, hexDigitsLE]
    have := hexDigitsLEAux_val (m + 1) (m + 1) 0 le_rfl
    simpa using this

/-- Claim C5, counterexample: the claim's name-side round-trip fails on
the non-canonical name `"00"`: it parses to the id 0, whose canonical name
is `"0"`, not `"00"` (`Char.ofNat 48` is the character `0`). -/
theorem C5_name_roundtrip_counterexample :
    id_from_name (String.mk [Char.ofNat 48, Char.ofNat 48]) = some 0 ∧
    name_from_id 0 = String.mk [Char.ofNat 48] ∧
    String.mk [Char.ofNat 48] ≠ String.mk [Char.ofNat 48, Char.ofNat 48] := by
  refine ⟨by decide, by decide, by decide⟩

/-- Claim C5, amended: `id_from_name (name_from_id id) = id` for every
64-bit id, and the name-side round-trip holds for every name that
`name_from_id` can produce (canonical lowercase hexadecimal, no leading
zeros); it fails only on other spellings such as `"00"`. -/
theorem C5_name_roundtrip_amended (id : Nat) (hid : id < ENC_MOD)
    (name : String) (j : Nat) (hj : j < ENC_MOD) (hname : name = name_from_id j) :
    id_from_name (name_from_id id) = some id ∧
    (id_from_name name).map name_from_id = some name := by
  refine ⟨id_from_name_name_from_id id, ?_⟩
  rw [hname, id_from_name_name_from_id j]
  rfl

/-- Witness for C5's amended theorem at the id 255 (name `"ff"`). -/
theorem C5_name_roundtrip_amended_witness :
    (255 < ENC_MOD ∧ 255 < ENC_MOD) ∧
    id_from_name (name_from_id 255) = some 255 ∧
    (id_from_name (name_from_id 255)).map name_from_id = some (name_from_id 255) := by
  have h := C5_name_roundtrip_amended 255 (by rw [ENC_MOD_eq]; omega)
    (name_from_id 255) 255 (by rw [ENC_MOD_eq]; omega) rfl
  exact ⟨⟨by rw [ENC_MOD_eq]; omega, by rw [ENC_MOD_eq]; omega⟩, h.1, h.2⟩

theorem natToLE_length (w : Nat) : ∀ n, (natToLE w n).length = w := by
  induction w with
  | zero => intro n; rfl
  | succ w ih =>
    intro n
    rw [natToLE, List.length_cons, ih]

theorem leToNat_natToLE (w : Nat) : ∀ n, n < 256 ^ w → leToNat (natToLE w n) = n := by
  induction w with
  | zero =>
    intro n h
    rw [pow_zero] at h
    interval_cases n
    rfl
  | succ w ih =>
    intro n h
    have hdiv : n / 256 < 256 ^ w := by
      rw [Nat.div_lt_iff_lt_mul (by norm_num : 0 < 256)]
      rw [pow_succ] at h
      exact h
    rw [natToLE, leToNat, ih (n / 256) hdiv]
    omega

theorem encodeRows_length (rows : Encoded) : (encodeRows rows).length = 16 * rows.length := by
  induction rows with
  | nil => rfl
  | cons r rs ih =>
    rw [encodeRows]
    simp [natToLE_length, ih]
    omega

theorem decodeRowsAux_cons (f b : Nat) (bs : List Nat) :
    decodeRowsAux (f + 1) (b :: bs) =
      if 15 ≤ bs.length then
        (decodeRowsAux f ((b :: bs).drop 16)).map
          fun rest =>
            (⟨leToNat ((b :: bs).take 8), leToNat (((b :: bs).drop 8).take 8)⟩ : Row) :: rest
      else none := rfl

theorem pow256_eq_ENC_MOD : (256 : Nat) ^ 8 = ENC_MOD := by norm_num [ENC_MOD]

theorem decodeRowsAux_encodeRows (rows : Encoded) : ∀ fuel, rows.length ≤ fuel →
    wfRows rows → decodeRowsAux fuel (encodeRows rows) = some rows := by
  induction rows with
  | nil =>
    intro fuel _ _
    cases fuel with
    | zero => rfl
    | succ f => rfl
  | cons r rs ih =>
    intro fuel hf hwf
    obtain ⟨f, rfl⟩ : ∃ f, fuel = f + 1 := by
      refine ⟨fuel - 1, ?_⟩
      rw [List.length_cons] at hf
      omega
    have hA : (natToLE 8 r.id).length = 8 := natToLE_length 8 r.id
    have hB : (natToLE 8 r.lastIndex).length = 8 := natToLE_length 8 r.lastIndex
    have hAB : (natToLE 8 r.id ++ natToLE 8 r.lastIndex).length = 16 := by
      rw [List.length_append, hA, hB]
    obtain ⟨a, A, hcons⟩ := List.exists_cons_of_ne_nil
      (show natToLE 8 r.id ≠ [] by
        intro hc
        rw [hc] at hA
        simp at hA)
    have hAlen : A.length = 7 := by
      have := hA
      rw [hcons, List.length_cons] at this
      omega
    rw [encodeRows, List.append_assoc, hcons, List.cons_append]
    rw [decodeRowsAux_cons]
    rw [if_pos (by
      simp only [List.length_append, hAlen, hB, natToLE_length, encodeRows_length]
      omega)]
    rw [← List.cons_append, ← hcons]
    rw [List.take_left' hA, List.drop_left' hA, List.take_left' hB]
    rw [show (natToLE 8 r.id ++ (natToLE 8 r.lastIndex ++ encodeRows rs)).drop 16
        = encodeRows rs by
      rw [← List.append_assoc]
      exact List.drop_left' hAB]
    have hwr := hwf r (List.mem_cons_self r rs)
    rw [leToNat_natToLE 8 r.id (by rw [pow256_eq_ENC_MOD]; exact hwr.1)]
    rw [leToNat_natToLE 8 r.lastIndex (by rw [pow256_eq_ENC_MOD]; exact hwr.2)]
    rw [ih f (by rw [List.length_cons] at hf; omega)
      (fun x hx => hwf x (List.mem_cons_of_mem r hx))]
    rfl

theorem deserialize_chunkids_cons (len : Nat) (rest : List Nat) :
    deserialize_chunkids (len :: rest) =
      if len ≤ rest.length then
        (decodeRows (rest.drop len)).map fun rows => (rest.take len, rows)
      else none := rfl

/-- Claim C6: serialization round-trips: `frombuffer (tobytes enc)`
reconstructs the same row array; the empty encoder serializes to the empty
buffer, and `frombuffer` of the empty buffer is the empty encoder. -/
theorem C6_serialization_roundtrip (e : Encoded) (hw : wfRows e) :
    frombuffer (tobytes e) = some e ∧
    tobytes [] = ([] : List Nat) ∧ frombuffer [] = some ([] : Encoded) := by
  refine ⟨?_, rfl, rfl⟩
  by_cases hne : e = []
  · subst hne
    rfl
  · rw [tobytes, serialize_chunkids, if_neg hne]
    rw [show VERSION_BYTES.length % 256 = 5 from rfl]
    rw [frombuffer, if_neg (by simp)]
    rw [List.cons_append, deserialize_chunkids_cons 5 (VERSION_BYTES ++ encodeRows e)]
    have hv : VERSION_BYTES.length = 5 := rfl
    rw [if_pos (by
      rw [List.length_append, hv]
      omega)]
    rw [List.drop_left' hv]
    rw [show decodeRows (encodeRows e) = some e from by
      rw [decodeRows]
      exact decodeRowsAux_encodeRows e (encodeRows e).length
        (by rw [encodeRows_length]; omega) hw]
    rfl

/-- Witness for C6 on a concrete two-row encoder. -/
theorem C6_serialization_roundtrip_witness :
    wfRows [⟨3, 19⟩, ⟨7, 20⟩] ∧
    frombuffer (tobytes [⟨3, 19⟩, ⟨7, 20⟩]) = some [⟨3, 19⟩, ⟨7, 20⟩] ∧
    tobytes [] = ([] : List Nat) ∧ frombuffer [] = some ([] : Encoded) := by
  have h := C6_serialization_roundtrip [⟨3, 19⟩, ⟨7, 20⟩] (by decide)
  exact ⟨by decide, h.1, h.2.1, h.2.2⟩

end ChunkIdEnc
